import Mathlib

/-!
Shallow embedding of the superfreq repository (brenns10/superfreq):
the `Alphabet` and `Message` classes of `superfreq/message.py`, the
`CaesarCipher` and `VigenereCipher` classes of `superfreq/cipher.py`,
and the `roundrobin`, `index_of_coincidence` and `SimilarityMetric`
helpers of `superfreq/util.py`.

Conventions of the embedding:
* characters are `Char`, texts are `List Char`;
* Python dicts become association lists (`List (Char × β)`) looked up
  with `List.lookup`;
* Python floats become `ℚ` (all the arithmetic in the source is exact
  on the inputs we reason about, except for the final cosine value,
  which we keep as its three exactly-computed building blocks);
* code that can raise an exception (`IndexError`, `ZeroDivisionError`,
  `KeyError`) is modelled with `Option`, `none` marking the raise;
* `list.index(c)` (which raises `ValueError` on a missing element) is
  modelled by the total `List.indexOf`; every theorem that relies on an
  index supplies the membership hypothesis under which both agree.
-/

namespace Superfreq

/-- `Alphabet` (message.py): an ordered list of characters plus a
normalization mapper from outside characters into the alphabet. -/
structure Alphabet where
  characters : List Char
  mapper : List (Char × Char)
deriving DecidableEq

/-- Recursion worker for `Alphabet.to_alphabet`, carrying the running
index `i` of the enumeration over the original text. -/
def toAlphabetAux (a : Alphabet) : List Char → Nat → List Char × List Nat
  | [], _ => ([], [])
  | c :: rest, i =>
    let p := toAlphabetAux a rest (i + 1)
    if c ∈ a.characters then (c :: p.1, i :: p.2)
    else
      match a.mapper.lookup c with
      | some d => (d :: p.1, i :: p.2)
      | none => p

/-- `Alphabet.to_alphabet` (message.py lines 35-57): keep in-alphabet
characters, normalize mapper-domain characters, silently drop the rest;
record the original offset of every kept character. -/
def Alphabet.to_alphabet (a : Alphabet) (original : List Char) : List Char × List Nat :=
  toAlphabetAux a original 0

/-- Recursion worker for `Alphabet.from_alphabet`, carrying the pointer
`idx` into `mapped`/`offsets` and the running position `i` in the
original text.  The source reads `mapped[idx]` after checking only
`idx < len(offsets)`; an out-of-range read of `mapped` (a Python
`IndexError`) is modelled by `none`. -/
def fromAlphabetAux (mapped : List Char) (offsets : List Nat) : Nat → Nat → List Char → Option (List Char)
  | _, _, [] => some []
  | idx, i, c :: rest =>
    if offsets[idx]? = some i then
      match mapped[idx]? with
      | some mc => (fromAlphabetAux mapped offsets (idx + 1) (i + 1) rest).map (fun r => mc :: r)
      | none => none
    else
      (fromAlphabetAux mapped offsets idx (i + 1) rest).map (fun r => c :: r)

/-- `Alphabet.from_alphabet` (message.py lines 59-81): walk the original
text; at each position matching the next pending offset emit the next
`mapped` entry, otherwise emit the original character. -/
def Alphabet.from_alphabet (_a : Alphabet) (mapped : List Char) (offsets : List Nat)
    (original : List Char) : Option (List Char) :=
  fromAlphabetAux mapped offsets 0 0 original

/-- `Alphabet.indices` (message.py lines 83-85): `characters.index` of
each character of the string. -/
def Alphabet.indices (a : Alphabet) (s : List Char) : List Nat :=
  s.map (fun c => a.characters.indexOf c)

/-- One lookup of `Alphabet.chars` (message.py line 89):
`self.characters[i % len(self.characters)]`.  Python's `%` on a
positive modulus agrees with `Int.emod`. -/
def Alphabet.charAt (a : Alphabet) (i : Int) : Char :=
  a.characters.getD (i % (a.characters.length : Int)).toNat 'A'

/-- `Alphabet.chars` (message.py lines 87-89). -/
def Alphabet.chars (a : Alphabet) (is : List Int) : List Char :=
  is.map (fun i => a.charAt i)

/-- `Alphabet.shift` (message.py lines 91-101): map to indices, add the
offset, map back through `chars` (which reduces modulo the size). -/
def Alphabet.shift (a : Alphabet) (s : List Char) (offset : Int) : List Char :=
  a.chars ((a.indices s).map (fun x : Nat => (x : Int) + offset))

/-- `Message` (message.py): the original text, its alphabet, and the
derived `alphatext`/`offsets` pair. -/
structure Message where
  original : List Char
  alphabet : Alphabet
  alphatext : List Char
  offsets : List Nat
deriving DecidableEq

/-- `Message.__init__` (message.py lines 126-142): `alphatext` and
`offsets` are computed from the text by `to_alphabet`. -/
def Message.ofText (text : List Char) (a : Alphabet) : Message :=
  { original := text
    alphabet := a
    alphatext := (a.to_alphabet text).1
    offsets := (a.to_alphabet text).2 }

/-- `Message.create_from` (message.py lines 164-175): rebuild a message
from the old one's original text and alphabet (recomputing
`alphatext`/`offsets`), then overwrite `alphatext` with the new one. -/
def Message.create_from (old : Message) (newAlphatext : List Char) : Message :=
  { Message.ofText old.original old.alphabet with alphatext := newAlphatext }

/-- The invariant every `Message` produced by the source constructor
satisfies: its `offsets` are the ones `to_alphabet` computes from its
original text (`message.py` line 142). -/
def Message.WF (m : Message) : Prop :=
  m.offsets = (m.alphabet.to_alphabet m.original).2

instance (m : Message) : Decidable m.WF := by
  unfold Message.WF
  infer_instance

/-- `CaesarCipher` (cipher.py): the key is an integer shift. -/
structure CaesarCipher where
  shift : Int
deriving DecidableEq

/-- `CaesarCipher.encrypt` (cipher.py lines 37-41). -/
def CaesarCipher.encrypt (c : CaesarCipher) (m : Message) : Message :=
  Message.create_from m (m.alphabet.shift m.alphatext c.shift)

/-- `CaesarCipher.decrypt` (cipher.py lines 43-47). -/
def CaesarCipher.decrypt (c : CaesarCipher) (m : Message) : Message :=
  Message.create_from m (m.alphabet.shift m.alphatext (-c.shift))

/-- `roundrobin` (util.py lines 40-51), the George Sakkis recipe: keep a
rotation of the nonexhausted iterators; draw the head of the front one,
sending its tail to the back; drop an exhausted iterator and continue
with the next. -/
def roundrobin : List (List Char) → List Char
  | [] => []
  | [] :: rest => roundrobin rest
  | (x :: xs) :: rest => x :: roundrobin (rest ++ [xs])
termination_by ls => (ls.map List.length).sum + ls.length
decreasing_by
  all_goals simp [List.map_append]
  omega

/-- Python's extended slice `l[start::step]` restricted to `start = 0`:
every `step`-th element of the list. -/
def takeEvery (step : Nat) : List Char → List Char
  | [] => []
  | x :: rest => x :: takeEvery step (rest.drop (step - 1))
termination_by l => l.length
decreasing_by
  simp
  omega

/-- Python's extended slice `l[start::step]` for `step ≥ 1`. -/
def pySlice (l : List Char) (start step : Nat) : List Char :=
  takeEvery step (l.drop start)

/-- `VigenereCipher` (cipher.py): the key is a word over the alphabet. -/
structure VigenereCipher where
  key : List Char
deriving DecidableEq

/-- `VigenereCipher._split_shift_join` (cipher.py lines 95-102): split
the alphatext into the `L` residue-class subsequences
`alphatext[i::L]`, shift subsequence `i` by `ks[i]`, round-robin the
shifted subsequences back together. -/
def VigenereCipher.splitShiftJoin (m : Message) (ks : List Int) : Message :=
  let L := ks.length
  let submessages := (List.range L).map (fun i => pySlice m.alphatext i L)
  let shifted := (submessages.zip ks).map (fun p => m.alphabet.shift p.1 p.2)
  Message.create_from m (roundrobin shifted)

/-- `VigenereCipher.encrypt` (cipher.py lines 104-106). -/
def VigenereCipher.encrypt (v : VigenereCipher) (m : Message) : Message :=
  VigenereCipher.splitShiftJoin m ((m.alphabet.indices v.key).map (fun x : Nat => (x : Int)))

/-- `VigenereCipher.decrypt` (cipher.py lines 108-111): same with the
negated indices. -/
def VigenereCipher.decrypt (v : VigenereCipher) (m : Message) : Message :=
  VigenereCipher.splitShiftJoin m ((m.alphabet.indices v.key).map (fun x : Nat => -(x : Int)))

/-- Sequential `Option`-valued map: models a Python loop that may raise
on any element (the whole computation raises iff some element does). -/
def optMap (f : α → Option β) : List α → Option (List β)
  | [] => some []
  | a :: t =>
    match f a with
    | none => none
    | some b => (optMap f t).map (fun bs => b :: bs)

/-- `index_of_coincidence` (util.py lines 59-66): `Σ n·(n-1)` over the
symbol counts, divided by `N·(N-1)`.  The division raises
`ZeroDivisionError` when `N ≤ 1`, modelled by `none`. -/
def index_of_coincidence (s : List Char) : Option ℚ :=
  let x : ℚ := (s.dedup.map (fun c => (s.count c : ℚ) * ((s.count c : ℚ) - 1))).sum
  let N := s.length
  if N * (N - 1) = 0 then none else some (x / ((N : ℚ) * ((N : ℚ) - 1)))

/-- `VigenereCipher.ic` (cipher.py lines 125-130): for every candidate
key size `i` in `range(2, len(s)-1)`, the average over `x < i` of
`index_of_coincidence(s[x::i]) * 26` (the scale 26 is hardcoded in the
source).  The printed lines are modelled as the returned list; a
`ZeroDivisionError` anywhere is modelled by `none`. -/
def VigenereCipher.ic (m : Message) : Option (List (Nat × ℚ)) :=
  let s := m.alphatext
  optMap
    (fun i =>
      (optMap (fun x => (index_of_coincidence (pySlice s x i)).map (fun q => q * 26))
          (List.range i)).map
        (fun iocs => (i, iocs.sum / (i : ℚ))))
    (List.range' 2 (s.length - 3))

/-- `SimilarityMetric` (util.py lines 69-115), constructed from a
reference counter (`self.counter`). -/
structure SimilarityMetric where
  counter : List (Char × ℚ)
deriving DecidableEq

/-- `Alphabet.empty_counter` (message.py lines 103-105). -/
def Alphabet.empty_counter (a : Alphabet) : List (Char × ℚ) :=
  a.characters.map (fun c => (c, 0))

/-- `SimilarityMetric.count` (util.py lines 94-98): the alphabet's empty
counter updated with the message's alphatext.  `Counter.update` keeps
the alphabet keys (now holding the occurrence counts) and appends any
alphatext character outside the alphabet as a fresh key. -/
def SimilarityMetric.count (m : Message) : List (Char × ℚ) :=
  m.alphabet.characters.map (fun c => (c, (m.alphatext.count c : ℚ)))
    ++ (m.alphatext.dedup.filter (fun c => c ∉ m.alphabet.characters)).map
        (fun c => (c, (m.alphatext.count c : ℚ)))

/-- `SimilarityMetric.frequency` (util.py lines 100-103): divide every
count by the total.  With a nonempty counter whose total is zero the
division raises `ZeroDivisionError`, modelled by `none`; an empty
counter yields the empty dict without dividing. -/
def SimilarityMetric.frequency (counter : List (Char × ℚ)) : Option (List (Char × ℚ)) :=
  let l : ℚ := (counter.map (fun p => p.2)).sum
  optMap (fun p => if l = 0 then none else some (p.1, p.2 / l)) counter

/-- `self.frequencies`, computed in `SimilarityMetric.__init__`
(util.py line 92). -/
def SimilarityMetric.frequencies (sim : SimilarityMetric) : Option (List (Char × ℚ)) :=
  SimilarityMetric.frequency sim.counter

/-- `SimilarityMetric.compute` (util.py lines 105-115), kept as the
exactly-computed triple `(num, lden, rden)`; the source returns the
float `num / (sqrt lden * sqrt rden)`, raising `ZeroDivisionError` when
the denominator is zero (modelled by `none`), and raising `KeyError`
when a dict lookup misses (also `none`). -/
def SimilarityMetric.computeParts (sim : SimilarityMetric) (m : Message) : Option (ℚ × ℚ × ℚ) :=
  (SimilarityMetric.frequency (SimilarityMetric.count m)).bind (fun freq =>
    sim.frequencies.bind (fun refs =>
      (optMap
          (fun k =>
            (freq.lookup k).bind (fun f =>
              (refs.lookup k).map (fun r => (f * r, f * f, r * r))))
          m.alphabet.characters).bind
        (fun terms : List (ℚ × ℚ × ℚ) =>
          let num : ℚ := (terms.map (fun t => t.1)).sum
          let lden : ℚ := (terms.map (fun t => t.2.1)).sum
          let rden : ℚ := (terms.map (fun t => t.2.2)).sum
          if lden * rden = 0 then none else some (num, lden, rden))))

/-- `CaesarCipher.crack` before its final `options.sort(reverse=True)`
(cipher.py lines 62-67): one `(score, decrypted message, cipher)` entry
per shift `i` in `range(len(alphabet.characters))`. -/
def CaesarCipher.crackOptions (m : Message) (sim : SimilarityMetric) :
    List (Option (ℚ × ℚ × ℚ) × Message × Int) :=
  (List.range m.alphabet.characters.length).map
    (fun i =>
      let result := (CaesarCipher.mk (i : Int)).decrypt m
      (sim.computeParts result, result, (i : Int)))

/-! ## Concrete instances used in witnesses and counterexamples -/

/-- A one-letter alphabet with a lowercase-folding mapper. -/
def tinyAlphabet : Alphabet :=
  ⟨['A'], [('a', 'A')]⟩

/-- A two-letter alphabet with no mapper. -/
def abAlphabet : Alphabet :=
  ⟨['A', 'B'], []⟩

/-- A three-letter alphabet with no mapper. -/
def abcAlphabet : Alphabet :=
  ⟨['A', 'B', 'C'], []⟩

/-- A five-letter alphabet with no mapper. -/
def abcdeAlphabet : Alphabet :=
  ⟨['A', 'B', 'C', 'D', 'E'], []⟩

/-! ## General helper lemmas -/

theorem mem_of_lookup_eq_some {ps : List (Char × Char)} {c d : Char}
    (h : ps.lookup c = some d) : (c, d) ∈ ps := by
  induction ps with
  | nil => simp [List.lookup] at h
  | cons p t ih =>
    rcases p with ⟨k, v⟩
    rw [List.lookup] at h
    by_cases hc : c == k
    · simp [hc] at h
      have hk : c = k := eq_of_beq hc
      simp [hk, h]
    · simp [hc] at h
      simp [ih h]

theorem optMap_eq_none {f : α → Option β} {l : List α} {a : α} (ha : a ∈ l)
    (hf : f a = none) : optMap f l = none := by
  induction l with
  | nil => cases ha
  | cons b t ih =>
    rcases List.mem_cons.1 ha with h | h
    · subst h
      simp [optMap, hf]
    · unfold optMap
      cases hfb : f b with
      | none => rfl
      | some v => simp [ih h]

theorem sum_snd_map_zero (l : List Char) :
    ((l.map (fun c => (c, (0 : ℚ)))).map (fun p => p.2)).sum = 0 := by
  induction l with
  | nil => rfl
  | cons c t ih => simpa using ih

/-! ## Claim C5: empty message rejected by frequency computation -/

theorem count_of_empty_alphatext (m : Message) (h : m.alphatext = []) :
    SimilarityMetric.count m = m.alphabet.characters.map (fun c => (c, (0 : ℚ))) := by
  simp [SimilarityMetric.count, h]

/-- Claim C5: a zero-length message (empty `alphatext`) passed to the
frequency computation is rejected as a degenerate-input error (the
division by the zero total, a `ZeroDivisionError` in the source,
modelled by `none`) rather than yielding a numeric score: `compute`
returns no score, and with a nonempty alphabet `frequency` itself
already fails on the all-zero counter. -/
theorem claim5_empty_message_rejected (sim : SimilarityMetric) (m : Message)
    (h : m.alphatext = []) :
    SimilarityMetric.computeParts sim m = none ∧
      (m.alphabet.characters ≠ [] →
        SimilarityMetric.frequency (SimilarityMetric.count m) = none) := by
  have hcount := count_of_empty_alphatext m h
  by_cases hchar : m.alphabet.characters = []
  · refine ⟨?_, fun hc => absurd hchar hc⟩
    unfold SimilarityMetric.computeParts
    rw [hcount, hchar]
    cases hrefs : sim.frequencies with
    | none => simp [SimilarityMetric.frequency, optMap, hrefs]
    | some refs => simp [SimilarityMetric.frequency, optMap, hrefs]
  · have hfreq : SimilarityMetric.frequency (SimilarityMetric.count m) = none := by
      rcases List.exists_cons_of_ne_nil hchar with ⟨c, cs, hcs⟩
      rw [hcount, hcs]
      unfold SimilarityMetric.frequency
      rw [sum_snd_map_zero]
      simp [optMap]
    refine ⟨?_, fun _ => hfreq⟩
    unfold SimilarityMetric.computeParts
    rw [hfreq]
    rfl

/-- Witness for C5 at a concrete empty-text message over `abAlphabet`. -/
theorem claim5_empty_message_rejected_witness :
    (Message.ofText [] abAlphabet).alphatext = [] ∧
      SimilarityMetric.computeParts (SimilarityMetric.mk [('A', 1), ('B', 1)])
          (Message.ofText [] abAlphabet) = none := by
  refine ⟨by decide, ?_⟩
  exact (claim5_empty_message_rejected (SimilarityMetric.mk [('A', 1), ('B', 1)])
    (Message.ofText [] abAlphabet) (by decide)).1

/-! ## Claim C6: shift arithmetic and wraparound -/

theorem charAt_coe_of_lt (a : Alphabet) (j : Nat) (h : j < a.characters.length) :
    a.charAt (j : Int) = a.characters[j] := by
  unfold Alphabet.charAt
  rw [Int.emod_eq_of_lt (Int.natCast_nonneg j) (by exact_mod_cast h), Int.toNat_natCast]
  exact List.getD_eq_getElem _ _ h

/-- Claim C6: `Alphabet.shift` maps each symbol to its index, adds the
offset and reduces modulo the alphabet size (first conjunct, which is
exactly the code's composition `chars ∘ (+offset) ∘ indices`); the
reduction wraps in both directions: it is periodic in the offset, the
last symbol shifted by `+1` is the first, and the first shifted by `-1`
is the last. -/
theorem claim6_shift_wraparound (a : Alphabet) (hne : a.characters ≠ [])
    (hnd : a.characters.Nodup) :
    (∀ c : Char, ∀ k : Int,
        a.shift [c] k = [a.charAt ((a.characters.indexOf c : Int) + k)]) ∧
      (∀ c : Char, ∀ k : Int,
        a.shift [c] (k + (a.characters.length : Int)) = a.shift [c] k) ∧
      a.shift [a.characters.getLast hne] 1 = [a.characters.head hne] ∧
      a.shift [a.characters.head hne] (-1) = [a.characters.getLast hne] := by
  have hlen : 0 < a.characters.length := List.length_pos.2 hne
  have hsingle : ∀ (c : Char) (k : Int),
      a.shift [c] k = [a.charAt ((a.characters.indexOf c : Int) + k)] := fun c k => rfl
  refine ⟨hsingle, ?_, ?_, ?_⟩
  · intro c k
    rw [hsingle, hsingle]
    rw [show ((a.characters.indexOf c : Int) + (k + (a.characters.length : Int)))
        = ((a.characters.indexOf c : Int) + k) + (a.characters.length : Int) * 1 by ring]
    unfold Alphabet.charAt
    rw [Int.add_mul_emod_self_left]
  · rw [hsingle]
    have hidx : a.characters.indexOf (a.characters.getLast hne) = a.characters.length - 1 := by
      rw [List.getLast_eq_getElem]
      exact List.indexOf_getElem hnd _ _
    rw [hidx]
    rw [show ((a.characters.length - 1 : Nat) : Int) + 1 = (a.characters.length : Int) by omega]
    unfold Alphabet.charAt
    rw [Int.emod_self]
    rw [show ((0 : Int)).toNat = 0 from rfl]
    rw [List.getD_eq_getElem _ _ hlen, List.head_eq_getElem]
  · rw [hsingle]
    have hidx : a.characters.indexOf (a.characters.head hne) = 0 := by
      rw [List.head_eq_getElem]
      exact List.indexOf_getElem hnd _ _
    rw [hidx]
    rw [show (((0 : Nat) : Int) + -1) = -1 by omega]
    have hemod : (-1 : Int) % (a.characters.length : Int)
        = ((a.characters.length - 1 : Nat) : Int) := by
      rw [show (-1 : Int) = ((a.characters.length - 1 : Nat) : Int)
          + (a.characters.length : Int) * (-1) by omega]
      rw [Int.add_mul_emod_self_left]
      apply Int.emod_eq_of_lt <;> omega
    unfold Alphabet.charAt
    rw [hemod, Int.toNat_natCast]
    rw [List.getD_eq_getElem _ _ (show a.characters.length - 1 < a.characters.length by omega)]
    rw [List.getLast_eq_getElem]

/-- Witness for C6 at the concrete alphabet `abcAlphabet`. -/
theorem claim6_shift_wraparound_witness :
    (abcAlphabet.characters ≠ [] ∧ abcAlphabet.characters.Nodup) ∧
      abcAlphabet.shift [abcAlphabet.characters.getLast (by decide)] 1
        = [abcAlphabet.characters.head (by decide)] := by
  refine ⟨⟨by decide, by decide⟩, ?_⟩
  exact (claim6_shift_wraparound abcAlphabet (by decide) (by decide)).2.2.1

/-! ## Claim C9: Caesar encrypt/decrypt only change the alphatext -/

/-- Claim C9: `CaesarCipher.encrypt` and `decrypt` return a message
with the same `original`, `offsets` and `alphabet` as the input (the
only field they change is `alphatext`). -/
theorem claim9_caesar_frame (c : CaesarCipher) (m : Message) (h : m.WF) :
    ((c.encrypt m).original = m.original ∧ (c.encrypt m).offsets = m.offsets ∧
        (c.encrypt m).alphabet = m.alphabet) ∧
      ((c.decrypt m).original = m.original ∧ (c.decrypt m).offsets = m.offsets ∧
        (c.decrypt m).alphabet = m.alphabet) := by
  unfold Message.WF at h
  refine ⟨⟨rfl, ?_, rfl⟩, ⟨rfl, ?_, rfl⟩⟩ <;>
    simp [CaesarCipher.encrypt, CaesarCipher.decrypt, Message.create_from, Message.ofText, h]

/-- Witness for C9 at a concrete message and cipher. -/
theorem claim9_caesar_frame_witness :
    (Message.ofText ['A', 'x', 'C'] abcAlphabet).WF ∧
      ((CaesarCipher.mk 2).encrypt (Message.ofText ['A', 'x', 'C'] abcAlphabet)).offsets
        = (Message.ofText ['A', 'x', 'C'] abcAlphabet).offsets := by
  refine ⟨by decide, ?_⟩
  exact (claim9_caesar_frame (CaesarCipher.mk 2)
    (Message.ofText ['A', 'x', 'C'] abcAlphabet) (by decide)).1.2.1

/-! ## Claims C1 and C7: reconstruction via `from_alphabet` -/

/-- The transformation `to_alphabet` applies to each character it keeps
(identity on in-alphabet characters, the mapper image on mapper-domain
characters); characters outside both are left to `from_alphabet` to
copy verbatim.  Used to characterize the round trip. -/
def Alphabet.normalized (a : Alphabet) (c : Char) : Char :=
  if c ∈ a.characters then c
  else
    match a.mapper.lookup c with
    | some d => d
    | none => c

theorem fromAlphabetAux_cons (mapped : List Char) (offsets : List Nat) (m0 : Char) (o0 : Nat) :
    ∀ (l : List Char) (idx i : Nat),
      fromAlphabetAux (m0 :: mapped) (o0 :: offsets) (idx + 1) i l
        = fromAlphabetAux mapped offsets idx i l := by
  intro l
  induction l with
  | nil => intro idx i; rfl
  | cons c rest ih =>
    intro idx i
    simp only [fromAlphabetAux, List.getElem?_cons_succ]
    by_cases hc : offsets[idx]? = some i
    · simp only [if_pos hc]
      cases hm : mapped[idx]? with
      | none => simp [hm]
      | some mc => simp [hm, ih]
    · simp only [if_neg hc]
      rw [ih]

theorem toAlphabetAux_offsets_ge (a : Alphabet) :
    ∀ (l : List Char) (i : Nat), ∀ o ∈ (toAlphabetAux a l i).2, i ≤ o := by
  intro l
  induction l with
  | nil =>
    intro i o ho
    simp [toAlphabetAux] at ho
  | cons c rest ih =>
    intro i o ho
    unfold toAlphabetAux at ho
    by_cases hc : c ∈ a.characters
    · rw [if_pos hc] at ho
      rcases List.mem_cons.1 ho with h | h
      · omega
      · have := ih (i + 1) o h
        omega
    · rw [if_neg hc] at ho
      cases hm : a.mapper.lookup c with
      | some d =>
        rw [hm] at ho
        rcases List.mem_cons.1 ho with h | h
        · omega
        · have := ih (i + 1) o h
          omega
      | none =>
        rw [hm] at ho
        have := ih (i + 1) o ho
        omega

theorem roundtrip_aux (a : Alphabet) :
    ∀ (l : List Char) (i : Nat),
      fromAlphabetAux (toAlphabetAux a l i).1 (toAlphabetAux a l i).2 0 i l
        = some (l.map a.normalized) := by
  intro l
  induction l with
  | nil => intro i; rfl
  | cons c rest ih =>
    intro i
    by_cases hc : c ∈ a.characters
    · have htop : toAlphabetAux a (c :: rest) i
          = (c :: (toAlphabetAux a rest (i + 1)).1, i :: (toAlphabetAux a rest (i + 1)).2) := by
        simp [toAlphabetAux, hc]
      rw [htop]
      simp only [fromAlphabetAux, List.getElem?_cons_zero, if_pos rfl]
      rw [fromAlphabetAux_cons, ih]
      simp [Alphabet.normalized, hc]
    · cases hm : a.mapper.lookup c with
      | some d =>
        have htop : toAlphabetAux a (c :: rest) i
            = (d :: (toAlphabetAux a rest (i + 1)).1, i :: (toAlphabetAux a rest (i + 1)).2) := by
          simp [toAlphabetAux, hc, hm]
        rw [htop]
        simp only [fromAlphabetAux, List.getElem?_cons_zero, if_pos rfl]
        rw [fromAlphabetAux_cons, ih]
        simp [Alphabet.normalized, hc, hm]
      | none =>
        have htop : toAlphabetAux a (c :: rest) i = toAlphabetAux a rest (i + 1) := by
          simp [toAlphabetAux, hc, hm]
        rw [htop]
        have hcond : ((toAlphabetAux a rest (i + 1)).2)[0]? ≠ some i := by
          cases hp : ((toAlphabetAux a rest (i + 1)).2) with
          | nil => simp
          | cons o os =>
            have ho : i + 1 ≤ o := by
              apply toAlphabetAux_offsets_ge a rest (i + 1)
              rw [hp]
              exact List.mem_cons_self o os
            simp only [List.getElem?_cons_zero, ne_eq, Option.some.injEq]
            omega
        simp only [fromAlphabetAux, if_neg hcond]
        rw [ih]
        simp [Alphabet.normalized, hc, hm]

/-- Claim C1, amended: for every alphabet and text, the round trip
`from_alphabet(to_alphabet(text), text)` succeeds and returns the text
with every kept character replaced by its `to_alphabet` normalization:
punctuation, spacing and characters outside both the alphabet and the
mapper come back verbatim, but a mapper-normalized character (e.g. a
lowercase letter under the default alphabet) comes back as its
normalized image, not as the original character. -/
theorem claim1_roundtrip_normalized (a : Alphabet) (text : List Char) :
    a.from_alphabet (a.to_alphabet text).1 (a.to_alphabet text).2 text
      = some (text.map a.normalized) :=
  roundtrip_aux a text 0

/-- Counterexample to claim C1 as stated: over the one-letter alphabet
`['A']` with mapper `'a' ↦ 'A'`, the text `"a"` does not round-trip to
itself (it comes back as `"A"`). -/
theorem claim1_counterexample :
    tinyAlphabet.from_alphabet (tinyAlphabet.to_alphabet ['a']).1
        (tinyAlphabet.to_alphabet ['a']).2 ['a'] ≠ some ['a'] := by
  decide

theorem fromAlphabetAux_spec :
    ∀ (orig : List Char) (i : Nat) (M : List Char) (O : List Nat),
      O.Pairwise (· < ·) →
      (∀ o ∈ O, i ≤ o ∧ o < i + orig.length) →
      M.length = O.length →
      ∃ r, fromAlphabetAux M O 0 i orig = some r ∧
        r.length = orig.length ∧
        (∀ k : Nat, ∀ hk : k < O.length, r[O[k] - i]? = M[k]?) ∧
        (∀ j : Nat, j < orig.length → (i + j) ∉ O → r[j]? = orig[j]?) := by
  intro orig
  induction orig with
  | nil =>
    intro i M O hsort hbound hlen
    cases O with
    | cons o O2 =>
      have h := hbound o (List.mem_cons_self o O2)
      simp at h
      omega
    | nil =>
      refine ⟨[], rfl, rfl, ?_, ?_⟩
      · intro k hk
        simp at hk
      · intro j hj
        simp at hj
  | cons c rest ih =>
    intro i M O hsort hbound hlen
    cases O with
    | nil =>
      cases M with
      | cons m0 M2 => simp at hlen
      | nil =>
        obtain ⟨r2, heq, hlen2, _, hj2⟩ :=
          ih (i + 1) [] [] (List.Pairwise.nil) (by simp) rfl
        refine ⟨c :: r2, ?_, by simp [hlen2], ?_, ?_⟩
        · simp only [fromAlphabetAux, List.getElem?_nil,
            if_neg (by simp : (none : Option Nat) ≠ some i)]
          rw [heq]
          rfl
        · intro k hk
          simp at hk
        · intro j hj _
          cases j with
          | zero => simp
          | succ j2 =>
            simp only [List.getElem?_cons_succ]
            exact hj2 j2 (by simpa using hj) (by simp)
    | cons o O2 =>
      cases M with
      | nil => simp at hlen
      | cons m0 M2 =>
        have hlen2 : M2.length = O2.length := by simpa using hlen
        have hpair := List.pairwise_cons.1 hsort
        by_cases ho : o = i
        · subst ho
          obtain ⟨r2, heq, hrlen, hk2, hj2⟩ :=
            ih (o + 1) M2 O2 hpair.2
              (by
                intro o2 ho2
                have h1 := hpair.1 o2 ho2
                have h2 := hbound o2 (List.mem_cons_of_mem o ho2)
                simp at h2
                omega)
              hlen2
          refine ⟨m0 :: r2, ?_, by simp [hrlen], ?_, ?_⟩
          · simp only [fromAlphabetAux, List.getElem?_cons_zero, if_pos rfl]
            rw [fromAlphabetAux_cons, heq]
            rfl
          · intro k hk
            cases k with
            | zero => simp
            | succ k2 =>
              have hk2' : k2 < O2.length := by simpa using hk
              have hge : o + 1 ≤ O2[k2] := hpair.1 O2[k2] (List.getElem_mem hk2')
              have harith : (o :: O2)[k2 + 1] - o = (O2[k2] - (o + 1)) + 1 := by
                simp only [List.getElem_cons_succ]
                omega
              rw [harith]
              simp only [List.getElem?_cons_succ]
              exact hk2 k2 hk2'
          · intro j hj hnot
            cases j with
            | zero =>
              exact absurd (by simp : o + 0 ∈ o :: O2) hnot
            | succ j2 =>
              simp only [List.getElem?_cons_succ]
              refine hj2 j2 (by simpa using hj) ?_
              intro hmem
              exact hnot (by
                have : o + (j2 + 1) = o + 1 + j2 := by omega
                rw [this]
                exact List.mem_cons_of_mem o hmem)
        · have hge : ∀ o2 ∈ o :: O2, i + 1 ≤ o2 := by
            intro o2 ho2
            rcases List.mem_cons.1 ho2 with h | h
            · have := (hbound o (List.mem_cons_self o O2)).1
              omega
            · have h1 := hpair.1 o2 h
              have := (hbound o (List.mem_cons_self o O2)).1
              omega
          obtain ⟨r2, heq, hrlen, hk2, hj2⟩ :=
            ih (i + 1) (m0 :: M2) (o :: O2) hsort
              (by
                intro o2 ho2
                have h1 := hge o2 ho2
                have h2 := (hbound o2 ho2).2
                simp at h2
                omega)
              hlen
          refine ⟨c :: r2, ?_, by simp [hrlen], ?_, ?_⟩
          · have hcond : ((o :: O2)[0]? : Option Nat) ≠ some i := by
              simp only [List.getElem?_cons_zero, ne_eq, Option.some.injEq]
              exact ho
            simp only [fromAlphabetAux, if_neg hcond]
            rw [heq]
            rfl
          · intro k hk
            have hgek : i + 1 ≤ (o :: O2)[k] := hge _ (List.getElem_mem hk)
            have harith : (o :: O2)[k] - i = ((o :: O2)[k] - (i + 1)) + 1 := by omega
            rw [harith]
            simp only [List.getElem?_cons_succ]
            exact hk2 k hk
          · intro j hj hnot
            cases j with
            | zero => simp
            | succ j2 =>
              simp only [List.getElem?_cons_succ]
              refine hj2 j2 (by simpa using hj) ?_
              intro hmem
              exact hnot (by
                have : i + (j2 + 1) = i + 1 + j2 := by omega
                rw [this]
                exact hmem)

/-- Claim C7: with inputs satisfying the data-model invariants (offsets
strictly increasing, in range of the original, one offset per mapped
entry), `from_alphabet` succeeds and returns a sequence of the same
length as the original, placing each mapped entry at its recorded
offset and every other original character verbatim; offsets may stop
before the end of the original (the remaining tail is copied verbatim,
covered by the last conjunct, with no error). -/
theorem claim7_from_alphabet_guarantees (a : Alphabet) (mapped : List Char)
    (offsets : List Nat) (original : List Char)
    (hsort : offsets.Pairwise (· < ·))
    (hbound : ∀ o ∈ offsets, o < original.length)
    (hlen : mapped.length = offsets.length) :
    ∃ r, a.from_alphabet mapped offsets original = some r ∧
      r.length = original.length ∧
      (∀ k : Nat, ∀ hk : k < offsets.length, r[offsets[k]]? = mapped[k]?) ∧
      (∀ j : Nat, j < original.length → j ∉ offsets → r[j]? = original[j]?) := by
  obtain ⟨r, h1, h2, h3, h4⟩ :=
    fromAlphabetAux_spec original 0 mapped offsets hsort
      (fun o ho => ⟨Nat.zero_le o, by simpa using hbound o ho⟩) hlen
  refine ⟨r, h1, h2, ?_, ?_⟩
  · intro k hk
    have := h3 k hk
    simpa using this
  · intro j hj hnot
    exact h4 j hj (by simpa using hnot)

/-- Witness for C7 at concrete inputs whose offsets stop before the end
of the original text. -/
theorem claim7_from_alphabet_guarantees_witness :
    (([0, 2] : List Nat).Pairwise (· < ·) ∧
        (∀ o ∈ ([0, 2] : List Nat), o < (['A', 'x', 'A', 'y'] : List Char).length) ∧
        (['B', 'C'] : List Char).length = ([0, 2] : List Nat).length) ∧
      ∃ r, abcAlphabet.from_alphabet ['B', 'C'] [0, 2] ['A', 'x', 'A', 'y'] = some r ∧
        r.length = (['A', 'x', 'A', 'y'] : List Char).length ∧
        (∀ k : Nat, ∀ hk : k < ([0, 2] : List Nat).length,
          r[([0, 2] : List Nat)[k]]? = (['B', 'C'] : List Char)[k]?) ∧
        (∀ j : Nat, j < (['A', 'x', 'A', 'y'] : List Char).length →
          j ∉ ([0, 2] : List Nat) → r[j]? = (['A', 'x', 'A', 'y'] : List Char)[j]?) := by
  refine ⟨⟨by decide, by decide, by decide⟩, ?_⟩
  exact claim7_from_alphabet_guarantees abcAlphabet ['B', 'C'] [0, 2] ['A', 'x', 'A', 'y']
    (by decide) (by decide) (by decide)

/-! ## Shift machinery shared by C2, C3 and C10 -/

/-- The per-character action of `Alphabet.shift`. -/
def Alphabet.shiftChar (a : Alphabet) (k : Int) (c : Char) : Char :=
  a.charAt ((a.characters.indexOf c : Int) + k)

theorem shift_eq_map (a : Alphabet) (s : List Char) (k : Int) :
    a.shift s k = s.map (a.shiftChar k) := by
  unfold Alphabet.shift Alphabet.chars Alphabet.indices Alphabet.shiftChar
  rw [List.map_map, List.map_map]
  rfl

theorem charAt_mem (a : Alphabet) (hne : a.characters ≠ []) (i : Int) :
    a.charAt i ∈ a.characters := by
  unfold Alphabet.charAt
  have hlen : 0 < a.characters.length := List.length_pos.2 hne
  have hlenI : (0 : Int) < (a.characters.length : Int) := by exact_mod_cast hlen
  have h1 : 0 ≤ i % (a.characters.length : Int) := Int.emod_nonneg i (by omega)
  have h2 : i % (a.characters.length : Int) < (a.characters.length : Int) :=
    Int.emod_lt_of_pos i hlenI
  have h3 : (i % (a.characters.length : Int)).toNat < a.characters.length := by omega
  rw [List.getD_eq_getElem _ _ h3]
  exact List.getElem_mem h3

theorem shiftChar_left_inverse (a : Alphabet) (hnd : a.characters.Nodup) (k : Int)
    (c : Char) (hc : c ∈ a.characters) :
    a.shiftChar (-k) (a.shiftChar k c) = c := by
  have hlen : 0 < a.characters.length := List.length_pos.2 (List.ne_nil_of_mem hc)
  have hnpos : (0 : Int) < (a.characters.length : Int) := by exact_mod_cast hlen
  have hj : a.characters.indexOf c < a.characters.length := List.indexOf_lt_length.2 hc
  unfold Alphabet.shiftChar Alphabet.charAt
  have hnn : 0 ≤ ((a.characters.indexOf c : Int) + k) % (a.characters.length : Int) :=
    Int.emod_nonneg _ (by omega)
  have hlt : ((a.characters.indexOf c : Int) + k) % (a.characters.length : Int)
      < (a.characters.length : Int) := Int.emod_lt_of_pos _ hnpos
  have htlt : (((a.characters.indexOf c : Int) + k) % (a.characters.length : Int)).toNat
      < a.characters.length := by omega
  rw [List.getD_eq_getElem _ _ htlt]
  rw [List.indexOf_getElem hnd _ htlt]
  rw [Int.toNat_of_nonneg hnn]
  have hmods : (((a.characters.indexOf c : Int) + k) % (a.characters.length : Int) + -k)
      % (a.characters.length : Int) = (a.characters.indexOf c : Int) := by
    rw [Int.add_emod, Int.emod_emod_of_dvd _ (dvd_refl _), ← Int.add_emod]
    rw [show ((a.characters.indexOf c : Int) + k + -k) = (a.characters.indexOf c : Int) by ring]
    exact Int.emod_eq_of_lt (Int.natCast_nonneg _) (by exact_mod_cast hj)
  rw [hmods, Int.toNat_natCast]
  rw [List.getD_eq_getElem _ _ hj]
  exact List.getElem_indexOf hj

/-! ## Claim C2: Caesar decrypt ∘ encrypt is the identity -/

/-- Claim C2: for every integer shift and every message whose alphatext
consists of alphabet symbols (with the alphabet duplicate-free and the
message carrying the offsets its constructor computed),
`decrypt(encrypt(m)) = m`, with the same original, offsets, alphabet
and alphatext. -/
theorem claim2_caesar_roundtrip (c : CaesarCipher) (m : Message) (hWF : m.WF)
    (hnd : m.alphabet.characters.Nodup)
    (hsub : ∀ x ∈ m.alphatext, x ∈ m.alphabet.characters) :
    c.decrypt (c.encrypt m) = m := by
  have halpha : m.alphabet.shift (m.alphabet.shift m.alphatext c.shift) (-c.shift)
      = m.alphatext := by
    rw [shift_eq_map, shift_eq_map, List.map_map]
    conv_rhs => rw [← List.map_id m.alphatext]
    apply List.map_congr_left
    intro x hx
    exact shiftChar_left_inverse m.alphabet hnd c.shift x (hsub x hx)
  cases m with
  | mk orig alpha atext off =>
    unfold Message.WF at hWF
    simp only at hWF hsub halpha
    show Message.mk orig alpha (alpha.shift (alpha.shift atext c.shift) (-c.shift))
        ((alpha.to_alphabet orig).2) = Message.mk orig alpha atext off
    rw [halpha, ← hWF]

/-- Witness for C2 at a concrete shift and message. -/
theorem claim2_caesar_roundtrip_witness :
    ((Message.ofText ['B', '!', 'C', 'A'] abcAlphabet).WF ∧
        abcAlphabet.characters.Nodup ∧
        (∀ x ∈ (Message.ofText ['B', '!', 'C', 'A'] abcAlphabet).alphatext,
          x ∈ abcAlphabet.characters)) ∧
      (CaesarCipher.mk 5).decrypt
          ((CaesarCipher.mk 5).encrypt (Message.ofText ['B', '!', 'C', 'A'] abcAlphabet))
        = Message.ofText ['B', '!', 'C', 'A'] abcAlphabet := by
  refine ⟨⟨by decide, by decide, by decide⟩, ?_⟩
  exact claim2_caesar_roundtrip (CaesarCipher.mk 5)
    (Message.ofText ['B', '!', 'C', 'A'] abcAlphabet) (by decide) (by decide) (by decide)

/-! ## Claim C3: Vigenère split/shift/join machinery -/

theorem message_eq_of_fields {m1 m2 : Message} (h1 : m1.original = m2.original)
    (h2 : m1.alphabet = m2.alphabet) (h3 : m1.alphatext = m2.alphatext)
    (h4 : m1.offsets = m2.offsets) : m1 = m2 := by
  cases m1
  cases m2
  cases h1
  cases h2
  cases h3
  cases h4
  rfl

theorem roundrobin_nil_cons (B : List (List Char)) : roundrobin ([] :: B) = roundrobin B := by
  simp [roundrobin]

theorem roundrobin_cons_cons (y : Char) (A : List Char) (B : List (List Char)) :
    roundrobin ((y :: A) :: B) = y :: roundrobin (B ++ [A]) := by
  simp [roundrobin]

theorem roundrobin_nil_of_all_nil : ∀ ls : List (List Char), (∀ l ∈ ls, l = []) → roundrobin ls = [] := by
  intro ls
  induction ls with
  | nil => intro _; simp [roundrobin]
  | cons l rest ih =>
    intro h
    have hl : l = [] := h l (List.mem_cons_self l rest)
    subst hl
    rw [roundrobin_nil_cons]
    exact ih (fun l hl => h l (List.mem_cons_of_mem _ hl))

/-- Positional characterization of the split-shift-join pipeline: apply
`F (j % L)` to the element at position `j`, written with the function
family rotated by one at each step. -/
def mapRot (L : Nat) (F : Nat → Char → Char) : List Char → List Char
  | [] => []
  | x :: t => F 0 x :: mapRot L (fun i => F ((i + 1) % L)) t

theorem mapRot_length (L : Nat) : ∀ (t : List Char) (F : Nat → Char → Char),
    (mapRot L F t).length = t.length := by
  intro t
  induction t with
  | nil => intro F; rfl
  | cons x tl ih =>
    intro F
    simp [mapRot, ih]

theorem mapRot_comp (L : Nat) : ∀ (t : List Char) (F G : Nat → Char → Char),
    mapRot L G (mapRot L F t) = mapRot L (fun i c => G i (F i c)) t := by
  intro t
  induction t with
  | nil => intro F G; rfl
  | cons x tl ih =>
    intro F G
    simp only [mapRot]
    rw [ih]

theorem mapRot_id (L : Nat) : ∀ (t : List Char) (H : Nat → Char → Char),
    (∀ i c, c ∈ t → H i c = c) → mapRot L H t = t := by
  intro t
  induction t with
  | nil => intro H _; rfl
  | cons x tl ih =>
    intro H h
    simp only [mapRot]
    rw [h 0 x (List.mem_cons_self x tl),
      ih _ (fun i c hc => h ((i + 1) % L) c (List.mem_cons_of_mem _ hc))]

/-- The key interleaving lemma: round-robin joining the `L = K + 1`
residue-class slices of `t`, after mapping class `i` with `F i`,
produces `t` with `F (j % L)` applied at each position `j`. -/
theorem roundrobin_split (K : Nat) :
    ∀ (t : List Char) (F : Nat → Char → Char),
      roundrobin ((List.range (K + 1)).map
          (fun i => (takeEvery (K + 1) (t.drop i)).map (F i)))
        = mapRot (K + 1) F t := by
  intro t
  induction t with
  | nil =>
    intro F
    rw [show mapRot (K + 1) F [] = [] from rfl]
    apply roundrobin_nil_of_all_nil
    intro l hl
    rcases List.mem_map.1 hl with ⟨i, _, rfl⟩
    simp [takeEvery]
  | cons x tl ih =>
    intro F
    simp only [List.range_succ_eq_map, List.map_cons, List.map_map]
    have hhead : (takeEvery (K + 1) ((x :: tl).drop 0)).map (F 0)
        = F 0 x :: (takeEvery (K + 1) (tl.drop K)).map (F 0) := by
      rw [List.drop_zero, takeEvery]
      simp
    rw [hhead, roundrobin_cons_cons]
    simp only [mapRot]
    congr 1
    have harg : (List.range K).map
          ((fun i => (takeEvery (K + 1) ((x :: tl).drop i)).map (F i)) ∘ Nat.succ)
          ++ [(takeEvery (K + 1) (tl.drop K)).map (F 0)]
        = (List.range (K + 1)).map
            (fun i => (takeEvery (K + 1) (tl.drop i)).map (fun c => F ((i + 1) % (K + 1)) c)) := by
      rw [List.range_succ, List.map_append]
      congr 1
      · apply List.map_congr_left
        intro j hj
        have hjK : j < K := List.mem_range.1 hj
        simp only [Function.comp_apply]
        rw [show (x :: tl).drop (Nat.succ j) = tl.drop j from rfl]
        rw [Nat.mod_eq_of_lt (show j + 1 < K + 1 by omega)]
      · simp only [List.map_cons, List.map_nil]
        rw [Nat.mod_self]
    rw [harg]
    exact ih (fun i => F ((i + 1) % (K + 1)))

theorem zip_range_map (ks : List Int) :
    ∀ f : Nat → List Char,
      ((List.range ks.length).map f).zip ks
        = (List.range ks.length).map (fun i => (f i, ks.getD i 0)) := by
  induction ks with
  | nil => intro f; rfl
  | cons k kt ih =>
    intro f
    simp only [List.length_cons, List.range_succ_eq_map, List.map_cons, List.map_map,
      List.zip_cons_cons, List.getD_cons_zero]
    rw [ih (f ∘ Nat.succ)]
    congr 1

theorem splitShiftJoin_alphatext (m : Message) (ks : List Int) (K : Nat)
    (hK : ks.length = K + 1) :
    (VigenereCipher.splitShiftJoin m ks).alphatext
      = mapRot ks.length (fun i c => m.alphabet.shiftChar (ks.getD i 0) c) m.alphatext := by
  show roundrobin ((((List.range ks.length).map
        (fun i => pySlice m.alphatext i ks.length)).zip ks).map
      (fun p => m.alphabet.shift p.1 p.2)) = _
  rw [zip_range_map ks (fun i => pySlice m.alphatext i ks.length), List.map_map]
  have hfun : ∀ i ∈ List.range ks.length,
      ((fun p : List Char × Int => m.alphabet.shift p.1 p.2) ∘
        (fun i => (pySlice m.alphatext i ks.length, ks.getD i 0))) i
        = (takeEvery ks.length (m.alphatext.drop i)).map
            ((fun i c => m.alphabet.shiftChar (ks.getD i 0) c) i) := by
    intro i _
    simp only [Function.comp_apply]
    rw [shift_eq_map]
    rfl
  rw [List.map_congr_left hfun, hK]
  exact roundrobin_split K m.alphatext _

theorem getD_map_neg (ns : List Nat) :
    ∀ i : Nat, ((ns.map (fun x : Nat => -(x : Int))).getD i 0)
      = -((ns.map (fun x : Nat => (x : Int))).getD i 0) := by
  induction ns with
  | nil => intro i; simp
  | cons n nt ih =>
    intro i
    cases i with
    | zero => simp
    | succ j =>
      simp only [List.map_cons, List.getD_cons_succ]
      exact ih j

/-- Claim C3: for every Vigenère key of length 1..20 whose symbols are
in the (duplicate-free) alphabet and every message over that alphabet,
`decrypt(encrypt(m)) = m`; moreover the round-robin interleave inside
`encrypt` preserves the element count of the alphatext (also when
`message_length mod L ≠ 0`; order preservation is part of the
round-trip equality). -/
theorem claim3_vigenere_roundtrip (v : VigenereCipher) (m : Message)
    (hk1 : 1 ≤ v.key.length) (hk20 : v.key.length ≤ 20) (hWF : m.WF)
    (hnd : m.alphabet.characters.Nodup)
    (hsub : ∀ x ∈ m.alphatext, x ∈ m.alphabet.characters)
    (hkey : ∀ x ∈ v.key, x ∈ m.alphabet.characters) :
    v.decrypt (v.encrypt m) = m ∧ (v.encrypt m).alphatext.length = m.alphatext.length := by
  obtain ⟨K, hK⟩ : ∃ K, v.key.length = K + 1 := ⟨v.key.length - 1, by omega⟩
  have hlE : ((m.alphabet.indices v.key).map (fun x : Nat => (x : Int))).length = K + 1 := by
    simp [Alphabet.indices, hK]
  have hlD : ((m.alphabet.indices v.key).map (fun x : Nat => -(x : Int))).length = K + 1 := by
    simp [Alphabet.indices, hK]
  have henc := splitShiftJoin_alphatext m
    ((m.alphabet.indices v.key).map (fun x : Nat => (x : Int))) K hlE
  have hdecstep := splitShiftJoin_alphatext (v.encrypt m)
    ((m.alphabet.indices v.key).map (fun x : Nat => -(x : Int))) K hlD
  have hdec : (v.decrypt (v.encrypt m)).alphatext = m.alphatext := by
    show (VigenereCipher.splitShiftJoin (v.encrypt m)
      ((m.alphabet.indices v.key).map (fun x : Nat => -(x : Int)))).alphatext = m.alphatext
    rw [hdecstep, hlD]
    have henc2 : (v.encrypt m).alphatext
        = mapRot (K + 1) (fun i c => m.alphabet.shiftChar
            (((m.alphabet.indices v.key).map (fun x : Nat => (x : Int))).getD i 0) c)
          m.alphatext := by
      rw [← hlE]
      exact henc
    rw [henc2, mapRot_comp]
    apply mapRot_id
    intro i c hc
    show m.alphabet.shiftChar (((m.alphabet.indices v.key).map (fun x : Nat => -(x : Int))).getD i 0)
        (m.alphabet.shiftChar
          (((m.alphabet.indices v.key).map (fun x : Nat => (x : Int))).getD i 0) c) = c
    rw [getD_map_neg]
    exact shiftChar_left_inverse m.alphabet hnd _ c (hsub c hc)
  have hlen : (v.encrypt m).alphatext.length = m.alphatext.length := by
    show (VigenereCipher.splitShiftJoin m
      ((m.alphabet.indices v.key).map (fun x : Nat => (x : Int)))).alphatext.length
      = m.alphatext.length
    rw [henc]
    exact mapRot_length _ _ _
  refine ⟨?_, hlen⟩
  refine message_eq_of_fields rfl rfl hdec ?_
  exact hWF.symm

/-- Witness for C3 at a concrete two-letter key and a message whose
alphatext length 5 is not a multiple of the key length 2. -/
theorem claim3_vigenere_roundtrip_witness :
    (1 ≤ (['B', 'C'] : List Char).length ∧ (['B', 'C'] : List Char).length ≤ 20 ∧
        (Message.ofText ['A', 'B', ' ', 'C', 'A', 'C'] abcAlphabet).WF ∧
        abcAlphabet.characters.Nodup ∧
        (∀ x ∈ (Message.ofText ['A', 'B', ' ', 'C', 'A', 'C'] abcAlphabet).alphatext,
          x ∈ abcAlphabet.characters) ∧
        (∀ x ∈ (['B', 'C'] : List Char), x ∈ abcAlphabet.characters)) ∧
      ((VigenereCipher.mk ['B', 'C']).decrypt
            ((VigenereCipher.mk ['B', 'C']).encrypt
              (Message.ofText ['A', 'B', ' ', 'C', 'A', 'C'] abcAlphabet))
          = Message.ofText ['A', 'B', ' ', 'C', 'A', 'C'] abcAlphabet ∧
        ((VigenereCipher.mk ['B', 'C']).encrypt
            (Message.ofText ['A', 'B', ' ', 'C', 'A', 'C'] abcAlphabet)).alphatext.length
          = (Message.ofText ['A', 'B', ' ', 'C', 'A', 'C'] abcAlphabet).alphatext.length) := by
  refine ⟨⟨by decide, by decide, by decide, by decide, by decide, by decide⟩, ?_⟩
  exact claim3_vigenere_roundtrip (VigenereCipher.mk ['B', 'C'])
    (Message.ofText ['A', 'B', ' ', 'C', 'A', 'C'] abcAlphabet)
    (by decide) (by decide) (by decide) (by decide) (by decide) (by decide)

/-! ## Claim C10: the alphatext-in-alphabet invariant -/

theorem toAlphabetAux_mem (a : Alphabet) (hmap : ∀ p ∈ a.mapper, p.2 ∈ a.characters) :
    ∀ (l : List Char) (i : Nat), ∀ x ∈ (toAlphabetAux a l i).1, x ∈ a.characters := by
  intro l
  induction l with
  | nil =>
    intro i x hx
    simp [toAlphabetAux] at hx
  | cons c rest ih =>
    intro i x hx
    unfold toAlphabetAux at hx
    by_cases hc : c ∈ a.characters
    · rw [if_pos hc] at hx
      rcases List.mem_cons.1 hx with h | h
      · exact h ▸ hc
      · exact ih (i + 1) x h
    · rw [if_neg hc] at hx
      cases hm : a.mapper.lookup c with
      | some d =>
        rw [hm] at hx
        rcases List.mem_cons.1 hx with h | h
        · exact h ▸ hmap (c, d) (mem_of_lookup_eq_some hm)
        · exact ih (i + 1) x h
      | none =>
        rw [hm] at hx
        exact ih (i + 1) x hx

theorem shift_subset (a : Alphabet) (s : List Char) (k : Int)
    (hs : ∀ c ∈ s, c ∈ a.characters) : ∀ x ∈ a.shift s k, x ∈ a.characters := by
  intro x hx
  rw [shift_eq_map] at hx
  rcases List.mem_map.1 hx with ⟨c, hc, rfl⟩
  exact charAt_mem a (List.ne_nil_of_mem (hs c hc)) _

theorem takeEvery_subset (step : Nat) (l : List Char) : ∀ x ∈ takeEvery step l, x ∈ l := by
  induction l using takeEvery.induct step with
  | case1 => simp [takeEvery]
  | case2 y rest ih =>
    intro x hx
    rw [takeEvery] at hx
    rcases List.mem_cons.1 hx with h | h
    · simp [h]
    · exact List.mem_cons_of_mem y (List.drop_subset _ _ (ih x h))

theorem roundrobin_subset {P : Char → Prop} :
    ∀ ls : List (List Char), (∀ l ∈ ls, ∀ x ∈ l, P x) → ∀ x ∈ roundrobin ls, P x := by
  intro ls
  induction ls using roundrobin.induct with
  | case1 =>
    intro _ x hx
    simp [roundrobin] at hx
  | case2 rest ih =>
    intro h x hx
    rw [roundrobin_nil_cons] at hx
    exact ih (fun l hl => h l (List.mem_cons_of_mem _ hl)) x hx
  | case3 y ys rest ih =>
    intro h x hx
    rw [roundrobin_cons_cons] at hx
    rcases List.mem_cons.1 hx with hxy | hxr
    · exact hxy ▸ h (y :: ys) (List.mem_cons_self _ _) y (List.mem_cons_self _ _)
    · refine ih ?_ x hxr
      intro l hl z hz
      rcases List.mem_append.1 hl with h1 | h1
      · exact h l (List.mem_cons_of_mem _ h1) z hz
      · have : l = ys := by simpa using h1
        subst this
        exact h (y :: l) (List.mem_cons_self _ _) z (List.mem_cons_of_mem _ hz)

/-- Claim C10: over an alphabet whose mapper maps only into the symbol
set, every constructed message has its alphatext inside the symbol set,
and this invariant is preserved by Caesar and Vigenère encryption and
decryption. -/
theorem claim10_alphatext_invariant (a : Alphabet)
    (hmap : ∀ p ∈ a.mapper, p.2 ∈ a.characters) :
    (∀ text : List Char, ∀ x ∈ (Message.ofText text a).alphatext, x ∈ a.characters) ∧
      (∀ m : Message, m.alphabet = a → (∀ x ∈ m.alphatext, x ∈ a.characters) →
        ∀ cc : CaesarCipher, ∀ v : VigenereCipher,
          (∀ x ∈ (cc.encrypt m).alphatext, x ∈ a.characters) ∧
            (∀ x ∈ (cc.decrypt m).alphatext, x ∈ a.characters) ∧
            (∀ x ∈ (v.encrypt m).alphatext, x ∈ a.characters) ∧
            (∀ x ∈ (v.decrypt m).alphatext, x ∈ a.characters)) := by
  constructor
  · intro text x hx
    exact toAlphabetAux_mem a hmap text 0 x hx
  · intro m ha hsub cc v
    subst ha
    have hvig : ∀ ks : List Int, ∀ x ∈ (VigenereCipher.splitShiftJoin m ks).alphatext,
        x ∈ m.alphabet.characters := by
      intro ks x hx
      refine roundrobin_subset _ ?_ x hx
      intro l hl y hy
      rcases List.mem_map.1 hl with ⟨p, hp, rfl⟩
      refine shift_subset m.alphabet p.1 p.2 ?_ y hy
      intro z hz
      have hp1 := (List.of_mem_zip hp).1
      rcases List.mem_map.1 hp1 with ⟨i, _, heq⟩
      rw [← heq] at hz
      exact hsub z (List.drop_subset _ _ (takeEvery_subset _ _ z hz))
    exact ⟨shift_subset m.alphabet m.alphatext cc.shift hsub,
      shift_subset m.alphabet m.alphatext (-cc.shift) hsub,
      hvig _, hvig _⟩

/-- Witness for C10 at the concrete alphabet `tinyAlphabet`, whose
mapper maps into its symbol set. -/
theorem claim10_alphatext_invariant_witness :
    (∀ p ∈ tinyAlphabet.mapper, p.2 ∈ tinyAlphabet.characters) ∧
      (∀ text : List Char, ∀ x ∈ (Message.ofText text tinyAlphabet).alphatext,
        x ∈ tinyAlphabet.characters) := by
  refine ⟨by decide, ?_⟩
  exact (claim10_alphatext_invariant tinyAlphabet (by decide)).1

/-! ## Claim C4: Caesar crack ties -/

/-- The tie-producing input: the two-symbol alphabet, the message
`"AB"`, and the uniform reference counter. -/
def tieMessage : Message := Message.ofText ['A', 'B'] abAlphabet

/-- The uniform reference metric over `abAlphabet`. -/
def tieMetric : SimilarityMetric := SimilarityMetric.mk [('A', 1), ('B', 1)]

theorem computeParts_congr (sim : SimilarityMetric) (m1 m2 : Message)
    (ha : m1.alphabet = m2.alphabet)
    (hc : SimilarityMetric.count m1 = SimilarityMetric.count m2) :
    sim.computeParts m1 = sim.computeParts m2 := by
  unfold SimilarityMetric.computeParts
  rw [hc, ha]

/-- Claim C4 is a code bug: at the concrete input `tieMessage` /
`tieMetric`, `crack` builds exactly one option per shift (here shifts 0
and 1), the two decrypted candidates are distinct messages, and their
scores are computed from identical data, so they are equal — in the
source, `options.sort(reverse=True)` therefore compares the two
`Message` objects, which raises `TypeError` instead of returning the
ranked list. -/
theorem claim4_crack_score_tie :
    (CaesarCipher.crackOptions tieMessage tieMetric).map (fun t => t.1)
        = [tieMetric.computeParts ((CaesarCipher.mk 0).decrypt tieMessage),
            tieMetric.computeParts ((CaesarCipher.mk 1).decrypt tieMessage)] ∧
      tieMetric.computeParts ((CaesarCipher.mk 0).decrypt tieMessage)
          = tieMetric.computeParts ((CaesarCipher.mk 1).decrypt tieMessage) ∧
      (CaesarCipher.mk 0).decrypt tieMessage ≠ (CaesarCipher.mk 1).decrypt tieMessage := by
  refine ⟨rfl, ?_, by decide⟩
  apply computeParts_congr
  · rfl
  · decide

/-! ## Claim C8: the index-of-coincidence scan -/

/-- A five-letter message over the five-letter alphabet: the shortest
kind of input on which the `ic` scan reaches a singleton residue
class. -/
def icMessage : Message := Message.ofText ['A', 'B', 'C', 'D', 'E'] abcdeAlphabet

/-- Claim C8 is a code bug: on a message with alphatext length 5 the
scan must cover candidate key sizes `i = 2` and `i = 3`, but at `i = 3`
the residue class `s[2::3] = "C"` has a single element, so
`index_of_coincidence` divides by `N·(N-1) = 0` — a
`ZeroDivisionError` (modelled by `none`) instead of the averaged
values the claim describes. -/
theorem claim8_ic_crash : VigenereCipher.ic icMessage = none := by
  have hinner : optMap
      (fun x => (index_of_coincidence (pySlice icMessage.alphatext x 3)).map (fun q => q * 26))
      (List.range 3) = none := by
    apply optMap_eq_none (a := 2) (by decide)
    have h1 : pySlice icMessage.alphatext 2 3 = ['C'] := by
      show pySlice ['A', 'B', 'C', 'D', 'E'] 2 3 = ['C']
      simp [pySlice, takeEvery]
    rw [h1]
    rw [show index_of_coincidence ['C'] = none from by decide]
    rfl
  have hline : (optMap
        (fun x => (index_of_coincidence (pySlice icMessage.alphatext x 3)).map (fun q => q * 26))
        (List.range 3)).map
      (fun iocs => ((3 : Nat), iocs.sum / ((3 : Nat) : ℚ))) = none := by
    rw [hinner]
    rfl
  show optMap
      (fun i =>
        (optMap (fun x => (index_of_coincidence (pySlice icMessage.alphatext x i)).map
            (fun q => q * 26)) (List.range i)).map
          (fun iocs => (i, iocs.sum / ((i : Nat) : ℚ))))
      (List.range' 2 (icMessage.alphatext.length - 3)) = none
  exact optMap_eq_none
    (by decide : (3 : Nat) ∈ List.range' 2 (icMessage.alphatext.length - 3)) hline

end Superfreq
